import Mathlib

set_option autoImplicit false

/-!
Shallow embedding of the catalog-enrichment engine in
`src/app/api/enrich/route.ts` (the `POST` handler and its helper functions).

Modelling conventions:
* A JS object with string keys and string values (`CatalogRow`) is an ordered
  association list `List (String × String)`; JSON objects have unique keys and
  preserve insertion order.  Reading an absent key (`undefined`) and reading an
  empty-string value are both JS-falsy, so guards of the form `!row[k]` become
  `Row.getD r k = ""`.
* JS strings are processed through their character lists (`String.toList`);
  every character in play is in the Basic Multilingual Plane, so JS UTF-16
  indexing (`slice`) coincides with character indexing.
* JS numbers are IEEE-754 binary64 doubles, and the mrp computation is
  modelled at exactly that precision: `parseFloatQ` reads the exact rational
  value of the numeric literal, `roundF64` rounds a rational to the nearest
  binary64 value (round-to-nearest, ties-to-even, gradual underflow, overflow
  to infinity), `parseFloatD` composes the two (also recognising `Infinity`
  literals), `f64Mul125` re-rounds the exact product with `5/4` to a double,
  and `toFixed2` applies the ECMAScript nearest-hundredth, ties-up rule to the
  exact rational value of the resulting double.  (`toFixed` falls back to
  exponential `ToString` only at magnitudes at or above `10^21`; the theorems
  restrict to the fixed-point range below it.)  The double rounding is
  observable: exact `0.06 * 1.25 = 0.075`, but the binary64 product is just
  below `0.075` and `toFixed(2)` yields `"0.07"`, not `"0.08"`.
* The regex `/₹?\s*(\d+(?:,\d+)*(?:\.\d{2})?)/` and
  `/\b(XS|S|M|L|XL|XXL|XXXL|28|30|32|34|36|38|40|42)\b/i` are embedded as
  explicit scanners implementing the JS leftmost-match, greedy, ordered
  alternation semantics for exactly these patterns (see the doc comments).
* JS regex `\s` is modelled by `Char.isWhitespace`; all whitespace appearing in
  the claims is ASCII whitespace, where the two notions coincide.
-/

/-- JS string truthiness fallback `a || b`: the empty string is the only falsy
string, so `a || b` returns `a` unless `a` is empty. -/
def jsOr (a b : String) : String := if a = "" then b else a

/-- JS `x || b` where `x` is a possibly-undefined string (e.g. an out-of-range
array read); `undefined` and `""` are both falsy. -/
def jsOrU (a : Option String) (b : String) : String :=
  match a with
  | some s => jsOr s b
  | none => b

/-- Whether the first list is a prefix of the second (decidable, by scanning). -/
def isPrefixOfChars : List Char → List Char → Bool
  | [], _ => true
  | _ :: _, [] => false
  | a :: as, b :: bs => a == b && isPrefixOfChars as bs

/-- Whether the first list occurs contiguously inside the second. -/
def isInfixOfChars (needle hay : List Char) : Bool :=
  match hay with
  | [] => needle.isEmpty
  | _ :: t => isPrefixOfChars needle hay || isInfixOfChars needle t

/-- JS `String.prototype.includes`: `jsIncludes s sub` is true when `sub`
occurs contiguously inside `s`. -/
def jsIncludes (s sub : String) : Bool := isInfixOfChars sub.toList s.toList

/-- JS `String.prototype.toLowerCase`; all vocabulary words here are ASCII,
where `Char.toLower` agrees with JS. -/
def jsToLower (s : String) : String := String.mk (s.toList.map Char.toLower)

/-- JS `String.prototype.toUpperCase` (ASCII). -/
def jsToUpper (s : String) : String := String.mk (s.toList.map Char.toUpper)

/-- Leading and trailing whitespace removed; character-list form of JS
`String.prototype.trim`. -/
def trimChars (cs : List Char) : List Char :=
  ((cs.dropWhile Char.isWhitespace).reverse.dropWhile Char.isWhitespace).reverse

/-- JS `String.prototype.trim`. -/
def jsTrim (s : String) : String := String.mk (trimChars s.toList)

/-- JS `s.split(sep)` for a one-character separator, e.g. `rawData.split('\n')`:
fields between separator occurrences, keeping empty fields (splitting the empty
string gives `[""]`). -/
def splitOnChar (sep : Char) (cs : List Char) : List String :=
  cs.foldr
    (fun c acc =>
      match acc with
      | [] => [[]]
      | f :: rest => if c = sep then [] :: f :: rest else (c :: f) :: rest)
    [[]] |>.map String.mk

/-- JS `s.split(/\s+/)`: fields between maximal whitespace runs.  A leading or
trailing whitespace run produces a leading/trailing empty field, exactly as in
JS.  After a field, the remainder returned by `dropWhile` starts with a
whitespace character, so dropping its head and then the rest of the whitespace
run skips exactly the separator. -/
def splitWsFieldsF : Nat → List Char → List String
  | 0, cs => [String.mk (cs.takeWhile (fun c => !c.isWhitespace))]
  | fuel + 1, cs =>
    match cs.dropWhile (fun c => !c.isWhitespace) with
    | [] => [String.mk (cs.takeWhile (fun c => !c.isWhitespace))]
    | _ :: t =>
      String.mk (cs.takeWhile (fun c => !c.isWhitespace)) ::
        splitWsFieldsF fuel (t.dropWhile Char.isWhitespace)

/-- Entry point of the `\s+` split: each iteration emits one field and
consumes at least one separator character, so `cs.length` is always enough
fuel (the fuel-0 base case is unreachable and agrees with the empty case). -/
def splitWsFields (cs : List Char) : List String := splitWsFieldsF cs.length cs

/-- JS `replace(/\s+/g, ' ')`: each maximal whitespace run becomes a single
space.  Processing from the right: a whitespace character merges into a
following collapsed run (a leading `' '` of the recursive result always stands
for a whitespace run, since `' '` is itself whitespace). -/
def collapseWsChars : List Char → List Char
  | [] => []
  | c :: rest =>
    if c.isWhitespace then
      match collapseWsChars rest with
      | ' ' :: t => ' ' :: t
      | r => ' ' :: r
    else c :: collapseWsChars rest

/-- The `.trim().replace(/\s+/g, ' ')` normalisation used by every platform
title template. -/
def normSpace (s : String) : String := String.mk (collapseWsChars (trimChars s.toList))

/-- A catalog row (`CatalogRow` in the source): string-keyed, string-valued. -/
abbrev Row := List (String × String)

/-- Reading `r[k]`: `some v` when the key is present, `none` for `undefined`. -/
def Row.get (r : Row) (k : String) : Option String :=
  (r.find? (fun p => p.1 == k)).map (fun p => p.2)

/-- Reading `r[k]` where both `undefined` and `""` behave as the empty string
(JS falsiness); used for every `!row[k]` guard and `row[k] || d` fallback. -/
def Row.getD (r : Row) (k : String) : String := (Row.get r k).getD ""

/-- JS assignment `r[k] = v`: overwrite in place when the key exists, append
otherwise (objects keep insertion order). -/
def Row.set (r : Row) (k v : String) : Row :=
  if (Row.get r k).isSome then r.map (fun p => if p.1 == k then (k, v) else p)
  else r ++ [(k, v)]

/-- Translation of `generateTitle`: prefer the row's `title`/`name`/
`product_name`, else the first 10 whitespace-delimited tokens of the raw data
joined by single spaces, else `"Product"`. -/
def generateTitle (rawData : String) (row : Row) : String :=
  let title := jsOr (row.getD "title") (jsOr (row.getD "name") (jsOr (row.getD "product_name") ""))
  if title ≠ "" then title
  else
    let words := String.intercalate " " ((splitWsFields rawData.toList).take 10)
    jsOr words "Product"

/-- Translation of `generateDescription`: prefer the row's `description`/
`desc`; else synthesize from the row's own `brand`/`category`/`color`/
`material` (with defaults) plus the first 200 characters of the raw data. -/
def generateDescription (rawData : String) (row : Row) : String :=
  let desc := jsOr (row.getD "description") (jsOr (row.getD "desc") "")
  if desc ≠ "" then desc
  else
    let brand := jsOr (row.getD "brand") "Quality"
    let category := jsOr (row.getD "category") "product"
    let color := jsOr (row.getD "color") ""
    let material := jsOr (row.getD "material") ""
    let d1 := "Premium " ++ brand ++ " " ++ category
    let d2 := if color ≠ "" then d1 ++ " in " ++ color ++ " color" else d1
    let d3 := if material ≠ "" then d2 ++ " made with " ++ material else d2
    d3 ++ ". " ++ String.mk (rawData.toList.take 200)

/-- Translation of `generatePlatformTitle` (the `switch` on the platform tag). -/
def generatePlatformTitle (platform : String) (row : Row) (rawData : String) : String :=
  let baseTitle := jsOr (row.getD "product_title") (jsOr (row.getD "title") "Product")
  let brand := row.getD "brand"
  let color := row.getD "color"
  let size := row.getD "size"
  if platform = "amazon" then normSpace (brand ++ " " ++ baseTitle ++ " " ++ color ++ " " ++ size)
  else if platform = "flipkart" then normSpace (baseTitle ++ " (" ++ brand ++ ") - " ++ color)
  else if platform = "meesho" then normSpace (baseTitle ++ " " ++ color ++ " " ++ size)
  else if platform = "myntra" then normSpace (brand ++ " " ++ color ++ " " ++ baseTitle)
  else baseTitle

/-- Translation of `generatePlatformDescription`. -/
def generatePlatformDescription (platform : String) (row : Row) (rawData : String) : String :=
  let baseDesc := row.getD "description"
  let brand := row.getD "brand"
  let material := row.getD "material"
  if platform = "amazon" then
    baseDesc ++ "\n\nKey Features:\n• Premium Quality\n• " ++ brand ++ " Brand\n• " ++
      material ++ " Material\n• Fast Delivery Available"
  else if platform = "flipkart" then
    baseDesc ++ "\n\nSpecifications:\n- Brand: " ++ brand ++ "\n- Material: " ++ material ++
      "\n- Quality Assured"
  else if platform = "meesho" then
    baseDesc ++ "\n\n✓ Best Price\n✓ Quality Product\n✓ Fast Shipping"
  else if platform = "myntra" then
    baseDesc ++ "\n\nProduct Details:\n• Brand: " ++ brand ++ "\n• Material: " ++ material ++
      "\n• Style & Comfort Combined"
  else baseDesc

/-- Translation of `generateKeywords`: brand/category/color/material plus five
fixed words, falsy (empty) entries removed, joined by a comma and space. -/
def generateKeywords (platform : String) (row : Row) (rawData : String) : String :=
  let keywords := [row.getD "brand", row.getD "category", row.getD "color", row.getD "material",
    "quality", "premium", "best", "latest", "trending"].filter (fun s => s != "")
  String.intercalate ", " keywords

/-- The comma-group part `(?:,\d+)*` of the price regex, greedily matched:
repeatedly consume a comma followed by a maximal nonempty digit run.  Returns
the consumed characters and the remainder. -/
def scanCommaGroupsF : Nat → List Char → List Char × List Char
  | 0, cs => ([], cs)
  | fuel + 1, cs =>
    match cs with
    | ',' :: rest =>
      let ds := rest.takeWhile Char.isDigit
      if ds.isEmpty then ([], cs)
      else
        let res := scanCommaGroupsF fuel (rest.dropWhile Char.isDigit)
        (',' :: (ds ++ res.1), res.2)
    | _ => ([], cs)

/-- Entry point: each iteration consumes at least two characters (a comma and
a digit), so `cs.length` is always enough fuel (with fuel 0 the list is empty
and the fuel-0 base case agrees with the no-comma case). -/
def scanCommaGroups (cs : List Char) : List Char × List Char :=
  scanCommaGroupsF cs.length cs

/-- The optional fraction `(?:\.\d{2})?`: a dot followed by exactly two digits
(further digits are left unconsumed, as the pattern ends after the group). -/
def fracPart : List Char → List Char
  | '.' :: a :: b :: _ => if a.isDigit && b.isDigit then ['.', a, b] else []
  | _ => []

/-- The capture group `(\d+(?:,\d+)*(?:\.\d{2})?)` matched greedily at the
current position: fails unless the position starts with a digit. -/
def groupAt (cs : List Char) : Option (List Char) :=
  let ds := cs.takeWhile Char.isDigit
  if ds = [] then none
  else
    let rest := cs.dropWhile Char.isDigit
    let res := scanCommaGroups rest
    some (ds ++ res.1 ++ fracPart res.2)

/-- After the optional sign: `\s*` then the capture group.  A greedy `\s*`
followed by `\d+` is equivalent to skipping the whole whitespace run (every
backtracking position still starts with a non-digit whitespace character). -/
def matchAfterSign (cs : List Char) : Option (List Char) :=
  groupAt (cs.dropWhile Char.isWhitespace)

/-- The regex `/₹?\s*(\d+(?:,\d+)*(?:\.\d{2})?)/` tried at one position:
`₹?` greedily consumes a leading `₹` and falls back to not consuming it. -/
def matchGroupAt (cs : List Char) : Option (List Char) :=
  match cs with
  | c :: rest =>
    if c = '₹' then (matchAfterSign rest).orElse (fun _ => matchAfterSign cs)
    else matchAfterSign cs
  | [] => matchAfterSign cs

/-- JS `String.prototype.match`: try the pattern at each position from the
left; the first position that matches wins. -/
def findPriceGroup : List Char → Option (List Char)
  | [] => matchGroupAt []
  | c :: rest => (matchGroupAt (c :: rest)).orElse (fun _ => findPriceGroup rest)

/-- JS `s.replace(',', '')` with a string pattern: removes only the FIRST
comma occurrence. -/
def removeFirstComma : List Char → List Char
  | [] => []
  | c :: rest => if c = ',' then rest else c :: removeFirstComma rest

/-- Translation of `extractPrice`: first regex match's capture group, with the
first comma removed; the empty string when the regex does not match. -/
def extractPrice (rawData : String) : String :=
  match findPriceGroup rawData.toList with
  | some g => String.mk (removeFirstComma g)
  | none => ""

/-- The brand vocabulary (`commonBrands` in the source, in its declared order;
note the source list itself ends with `"Generic"`). -/
def commonBrands : List String :=
  ["Nike", "Adidas", "Puma", "Reebok", "Levi\x27s", "Zara", "H&M", "Generic"]

/-- Translation of `extractBrand`: the row's own value if truthy, else the
first vocabulary entry occurring (case-insensitively) in the raw data, else
`"Generic"`. -/
def extractBrand (rawData : String) (row : Row) : String :=
  if row.getD "brand" ≠ "" then row.getD "brand"
  else
    match commonBrands.find? (fun b => jsIncludes (jsToLower rawData) (jsToLower b)) with
    | some b => b
    | none => "Generic"

/-- The category vocabulary. -/
def categories : List String :=
  ["Shirt", "T-Shirt", "Jeans", "Shoes", "Dress", "Jacket", "Accessories"]

/-- Translation of `extractCategory`. -/
def extractCategory (rawData : String) (row : Row) : String :=
  if row.getD "category" ≠ "" then row.getD "category"
  else
    match categories.find? (fun c => jsIncludes (jsToLower rawData) (jsToLower c)) with
    | some c => c
    | none => "General"

/-- The color vocabulary. -/
def colors : List String :=
  ["Black", "White", "Red", "Blue", "Green", "Yellow", "Pink", "Grey", "Brown", "Navy"]

/-- Translation of `extractColor`. -/
def extractColor (rawData : String) (row : Row) : String :=
  if row.getD "color" ≠ "" then row.getD "color"
  else
    match colors.find? (fun c => jsIncludes (jsToLower rawData) (jsToLower c)) with
    | some c => c
    | none => "Multi"

/-- The material vocabulary. -/
def materials : List String :=
  ["Cotton", "Polyester", "Silk", "Wool", "Denim", "Leather", "Synthetic"]

/-- Translation of `extractMaterial`. -/
def extractMaterial (rawData : String) (row : Row) : String :=
  if row.getD "material" ≠ "" then row.getD "material"
  else
    match materials.find? (fun m => jsIncludes (jsToLower rawData) (jsToLower m)) with
    | some m => m
    | none => "Cotton"

/-- The alternatives of the size regex, in their declared order. -/
def sizeTokens : List String :=
  ["XS", "S", "M", "L", "XL", "XXL", "XXXL", "28", "30", "32", "34", "36", "38", "40", "42"]

/-- JS regex word character `\w`: ASCII letters, digits, underscore. -/
def isWordChar (c : Char) : Bool := c.isAlphanum || c = '_'

/-- Case-insensitive literal prefix match; returns the consumed characters of
the haystack and the remainder. -/
def ciPrefix : List Char → List Char → Option (List Char × List Char)
  | [], cs => some ([], cs)
  | _ :: _, [] => none
  | t :: ts, c :: cs =>
    if c.toLower = t.toLower then
      match ciPrefix ts cs with
      | some res => some (c :: res.1, res.2)
      | none => none
    else none

/-- The size alternation with surrounding `\b`, tried at one position.  `prev`
is the character before the position (`none` at the string start).  Every
alternative starts and ends with a word character, so the leading `\b` amounts
to `prev` not being a word character and the trailing `\b` to the next
character not being one; alternatives are tried in declared order and the
matched text is upper-cased (`sizeMatch[1].toUpperCase()`). -/
def trySizeAt (prev : Option Char) (cs : List Char) : Option String :=
  let wordBefore := match prev with | some p => isWordChar p | none => false
  if wordBefore then none
  else
    sizeTokens.findSome? (fun tok =>
      match ciPrefix tok.toList cs with
      | some res =>
        let wordAfter := match res.2 with | c :: _ => isWordChar c | [] => false
        if wordAfter then none else some (jsToUpper (String.mk res.1))
      | none => none)

/-- Leftmost match of the size regex: scan positions from the left. -/
def findSizeMatch (prev : Option Char) : List Char → Option String
  | [] => trySizeAt prev []
  | c :: rest =>
    match trySizeAt prev (c :: rest) with
    | some s => some s
    | none => findSizeMatch (some c) rest

/-- Translation of `extractSize`. -/
def extractSize (rawData : String) (row : Row) : String :=
  if row.getD "size" ≠ "" then row.getD "size"
  else
    match findSizeMatch none rawData.toList with
    | some s => s
    | none => "M"

/-- Value of a digit run. -/
def digitsToNat (ds : List Char) : Nat :=
  ds.foldl (fun n c => 10 * n + (c.toNat - '0'.toNat)) 0

/-- The exact rational value of the numeric-literal prefix read by JS
`parseFloat`: skip leading whitespace, optional sign, then the longest prefix
of the form `digits [ '.' digits ] [ ('e'|'E') [sign] digits ]`; `none` models
`NaN` (no numeric prefix).  This is the EXACT value of the literal;
`parseFloatD` below rounds it to the nearest binary64 double and handles the
`Infinity` literal, giving JS `parseFloat` itself. -/
def parseFloatQ (s : String) : Option ℚ :=
  let cs := s.toList.dropWhile Char.isWhitespace
  let sign : ℚ := match cs with
    | '-' :: _ => -1
    | _ => 1
  let cs1 := match cs with
    | '-' :: t => t
    | '+' :: t => t
    | _ => cs
  let intDs := cs1.takeWhile Char.isDigit
  let cs2 := cs1.dropWhile Char.isDigit
  let fracDs := match cs2 with
    | '.' :: t => t.takeWhile Char.isDigit
    | _ => []
  let cs3 := match cs2 with
    | '.' :: t => t.dropWhile Char.isDigit
    | _ => cs2
  if intDs = [] ∧ fracDs = [] then none
  else
    let mantissa : ℚ := (digitsToNat intDs : ℚ) + (digitsToNat fracDs : ℚ) / ((10 : ℚ) ^ fracDs.length)
    let exp : ℤ := match cs3 with
      | e :: rest =>
        if e = 'e' ∨ e = 'E' then
          let esign : ℤ := match rest with
            | '-' :: _ => -1
            | _ => 1
          let r2 := match rest with
            | '-' :: t => t
            | '+' :: t => t
            | _ => rest
          let eds := r2.takeWhile Char.isDigit
          if eds = [] then 0 else esign * (digitsToNat eds : ℤ)
        else 0
      | [] => 0
    some (sign * mantissa * (10 : ℚ) ^ exp)

/-- Two-digit zero padding for the fractional part of `toFixed(2)`. -/
def twoDigitPad (k : Nat) : String := if k < 10 then "0" ++ toString k else toString k

/-- ECMAScript `x.toFixed(2)` on an exact rational `x`: the integer `n` with
`n / 100` closest to `x`, ties toward the larger `n` (the floor form below is
exactly that rule), rendered with exactly two decimal places.  Below it is
applied to the exact rational value of a finite binary64 double, which is the
ECMAScript semantics for `|x| < 10^21` (above that, `toFixed` falls back to
`ToString`; see `f64ToFixed2`). -/
def toFixed2 (q : ℚ) : String :=
  let n : ℤ := ⌊q * 100 + 1 / 2⌋
  let sgn := if n < 0 then "-" else ""
  sgn ++ toString (n.natAbs / 100) ++ "." ++ twoDigitPad (n.natAbs % 100)

/-- A JS number as the mrp computation sees it: an IEEE-754 binary64 value —
finite (carrying its exact rational value, always representable in 53 bits by
construction in `roundF64Signed`), an infinity, or `NaN`. -/
inductive F64 where
  | finite (val : ℚ)
  | inf
  | negInf
  | nan

/-- Base-2 integer logarithm by structural recursion on a fuel argument;
`fuel ≥ n ≥ 1` always suffices, since the argument at least halves each
step. -/
def log2Fuel : Nat → Nat → Nat
  | 0, _ => 0
  | fuel + 1, n => if 2 ≤ n then log2Fuel fuel (n / 2) + 1 else 0

/-- The exponent `⌊log₂ n⌋` for `n ≥ 1` (and `0` at `0`). -/
def floorLog2Nat (n : Nat) : Nat := log2Fuel n n

/-- Whether `2^k ≤ n / d`, by integer comparison (no rational arithmetic). -/
def le2pow (n d : Nat) (k : Int) : Bool :=
  if 0 ≤ k then d * 2 ^ k.toNat ≤ n else d ≤ n * 2 ^ (-k).toNat

/-- The exponent `⌊log₂ (n / d)⌋` for `n, d ≥ 1`: from `2^a ≤ n < 2^(a+1)` and
`2^b ≤ d < 2^(b+1)` the quotient lies in `[2^(a-b-1), 2^(a-b+1))`, so the
estimate `a - b` is exact or one too big and a single comparison fixes it. -/
def floorLog2Rat (n d : Nat) : Int :=
  let k0 : Int := (floorLog2Nat n : Int) - (floorLog2Nat d : Int)
  if le2pow n d k0 then k0 else k0 - 1

/-- The nearest integer to `a / b`, ties to even (the IEEE rounding step). -/
def rndHalfEven (a b : Nat) : Nat :=
  let q := a / b
  let r := a % b
  if 2 * r < b then q
  else if b < 2 * r then q + 1
  else if q % 2 = 0 then q else q + 1

/-- The rational value `± m * 2^e`. -/
def qOfMantExp (neg : Bool) (m : Nat) (e : Int) : ℚ :=
  let num : Int := if neg then -(m : Int) else (m : Int)
  if 0 ≤ e then mkRat (num * ((2 ^ e.toNat : Nat) : Int)) 1
  else mkRat num (2 ^ (-e).toNat)

/-- Round the non-zero rational `± n / d` (`n, d ≥ 1`) to the nearest IEEE-754
binary64 value: a 53-bit mantissa at exponent `⌊log₂(n/d)⌋ - 52`, clamped to
the subnormal quantum `2^-1074` below `2^-1022`, rounded to nearest with ties
to even, overflowing to infinity when the rounded magnitude reaches
`2^1024`. -/
def roundF64Signed (neg : Bool) (n d : Nat) : F64 :=
  let k := floorLog2Rat n d
  let e : Int := if -1022 ≤ k then k - 52 else -1074
  let m := if 0 ≤ e then rndHalfEven n (d * 2 ^ e.toNat)
           else rndHalfEven (n * 2 ^ (-e).toNat) d
  if 1024 ≤ k ∨ (k = 1023 ∧ m = 2 ^ 53) then (if neg then F64.negInf else F64.inf)
  else F64.finite (qOfMantExp neg m e)

/-- Round an exact rational to the nearest binary64 value. -/
def roundF64 (q : ℚ) : F64 :=
  if q.num = 0 then F64.finite 0
  else roundF64Signed (decide (q.num < 0)) q.num.natAbs q.den

/-- JS `parseFloat`, as the binary64 value it actually returns: the exact
literal value (`parseFloatQ`) rounded to the nearest double; an `Infinity`
literal (after whitespace and an optional sign) gives an infinity; no numeric
prefix gives `NaN`. -/
def parseFloatD (s : String) : F64 :=
  let cs := s.toList.dropWhile Char.isWhitespace
  let neg := match cs with
    | '-' :: _ => true
    | _ => false
  let cs1 := match cs with
    | '-' :: t => t
    | '+' :: t => t
    | _ => cs
  if isPrefixOfChars "Infinity".toList cs1 then
    if neg then F64.negInf else F64.inf
  else
    match parseFloatQ s with
    | some q => roundF64 q
    | none => F64.nan

/-- JS `parseFloat(x) || 0`: `NaN` is falsy and falls back to `0` (as do `0`
and `-0`, which the fallback maps to `+0`, here plain `finite 0`); every other
value passes through. -/
def f64OrZero (x : F64) : F64 :=
  match x with
  | F64.nan => F64.finite 0
  | v => v

/-- The JS comparison `x > 0` on a double (`NaN > 0` is false). -/
def f64Pos (x : F64) : Bool :=
  match x with
  | F64.finite q => decide (0 < q.num)
  | F64.inf => true
  | F64.negInf => false
  | F64.nan => false

/-- The binary64 product `x * 1.25`: `1.25 = 5/4` is itself exact in
binary64, but the product must be re-rounded to 53 bits — the step the
two-decimal output visibly depends on. -/
def f64Mul125 (x : F64) : F64 :=
  match x with
  | F64.finite q => roundF64 (mkRat (5 * q.num) (4 * q.den))
  | F64.inf => F64.inf
  | F64.negInf => F64.negInf
  | F64.nan => F64.nan

/-- Whether a double is finite with magnitude below `10^21` — the range in
which ECMAScript `toFixed` uses the fixed-point rule modelled by `toFixed2`
(at or above `10^21` it falls back to exponential `ToString`). -/
def f64Below1e21 (x : F64) : Bool :=
  match x with
  | F64.finite q => decide (q.num.natAbs < 10 ^ 21 * q.den)
  | _ => false

/-- JS `x.toFixed(2)` on a double: fixed-point formatting of the exact value
of a finite double (the ECMAScript rule below `10^21`, the only range the
theorems state anything about); infinities and `NaN` print their names. -/
def f64ToFixed2 (x : F64) : String :=
  match x with
  | F64.finite q => toFixed2 q
  | F64.inf => "Infinity"
  | F64.negInf => "-Infinity"
  | F64.nan => "NaN"

/-- The `mrp` derivation of the `POST` handler, at binary64 precision:
`const price = parseFloat(enrichedRow['price']) || 0`, then
`price > 0 ? (price * 1.25).toFixed(2) : ''`. -/
def mrpFrom (priceStr : String) : String :=
  let price := f64OrZero (parseFloatD priceStr)
  if f64Pos price then f64ToFixed2 (f64Mul125 price) else ""

/-- One field-derivation step of the handler: target key, an extra guard
(always `true` except for `product_title`, whose source guard also requires a
truthy `rawInfo`), and the value as a function of the row at that moment. -/
abbrev Step := String × Bool × (Row → String)

/-- Execute one step: `if (!enrichedRow[key] && guard) enrichedRow[key] = value`. -/
def applyStep (r : Row) (s : Step) : Row :=
  if Row.getD r s.1 = "" ∧ s.2.1 = true then Row.set r s.1 (s.2.2 r) else r

/-- The platform list of the handler. -/
def platforms : List String := ["amazon", "flipkart", "meesho", "myntra"]

/-- The three steps of the `platforms.forEach` body for one platform tag. -/
def platformSteps (rawInfo : String) (p : String) : List Step :=
  [(p ++ "_title", true, fun r => generatePlatformTitle p r rawInfo),
   (p ++ "_description", true, fun r => generatePlatformDescription p r rawInfo),
   (p ++ "_keywords", true, fun r => generateKeywords p r rawInfo)]

/-- The straight-line body of `catalog.map` in the `POST` handler, as its list
of steps in source order.  Note which helpers receive the ORIGINAL `row` and
which receive the current `enrichedRow`, exactly as in the source. -/
def enrichSteps (rawInfo : String) (row : Row) : List Step :=
  [("product_title", rawInfo != "", fun _ => generateTitle rawInfo row),
   ("description", true, fun _ => generateDescription rawInfo row),
   ("price", true, fun _ => jsOr (extractPrice rawInfo) (jsOr (Row.getD row "price") "")),
   ("mrp", true, fun r => mrpFrom (Row.getD r "price"))] ++
  (platforms.map (platformSteps rawInfo)).flatten ++
  [("brand", true, fun _ => extractBrand rawInfo row),
   ("category", true, fun _ => extractCategory rawInfo row),
   ("color", true, fun _ => extractColor rawInfo row),
   ("size", true, fun _ => extractSize rawInfo row),
   ("material", true, fun _ => extractMaterial rawInfo row),
   ("stock_status", true, fun _ => "In Stock")]

/-- Enrichment of a single row (`enrichedRow` starts as a copy of `row`). -/
def enrichRow (rawInfo : String) (row : Row) : Row :=
  (enrichSteps rawInfo row).foldl applyStep row

/-- `rawData.split('\n').filter(line => line.trim())`. -/
def rawLinesOf (rawData : String) : List String :=
  (splitOnChar '\n' rawData.toList).filter (fun l => jsTrim l != "")

/-- `rawLines[index] || rawLines[0] || ''`. -/
def rawInfoFor (lines : List String) (i : Nat) : String :=
  jsOrU (lines.get? i) (jsOrU (lines.get? 0) "")

/-- `catalog.map((row, index) => ...)`: pair row `i` with `rawInfoFor` line `i`. -/
def enrichFrom (lines : List String) (i : Nat) : List Row → List Row
  | [] => []
  | row :: rest => enrichRow (rawInfoFor lines i) row :: enrichFrom lines (i + 1) rest

/-- The `POST` handler on a parsed body (`catalog` a list of rows, `rawData` a
string): the two validations, then the enrichment map.  `!catalog` and
`!Array.isArray(catalog)` cannot fire on a typed list; `!rawData` on a string
means `rawData === ''`.  The `try/catch` 500 path is unreachable in the model
(the transform is total). -/
def POST (catalog : List Row) (rawData : String) : Except (Nat × String) (List Row) :=
  if catalog.length = 0 then .error (400, "Invalid catalog data")
  else if rawData = "" then .error (400, "Raw data is required")
  else .ok (enrichFrom (rawLinesOf rawData) 0 catalog)

/-- The required derived keys of an `EnrichedCatalogRow` (spec §3), in step
order. -/
def requiredKeys : List String :=
  ["product_title", "description", "price", "mrp",
   "amazon_title", "amazon_description", "amazon_keywords",
   "flipkart_title", "flipkart_description", "flipkart_keywords",
   "meesho_title", "meesho_description", "meesho_keywords",
   "myntra_title", "myntra_description", "myntra_keywords",
   "brand", "category", "color", "size", "material", "stock_status"]

/-- Whether some step in the list targets `k` with a true guard. -/
def hasActiveStep (ss : List Step) (k : String) : Bool :=
  ss.any (fun s => s.1 == k && s.2.1)

/-- The raw-info selection rule exactly as the spec words it (for comparison
with the source's `rawLines[index] || rawLines[0] || ''`): `rawLines[i]` if
that index exists, otherwise `rawLines[0]` if any lines exist, otherwise the
empty string. -/
def specSelect (lines : List String) (i : Nat) : String :=
  if h : i < lines.length then lines.get ⟨i, h⟩
  else if lines ≠ [] then lines.getD 0 ""
  else ""

/-- A key read back right after `r[k] = v` yields `v`. -/
theorem Row.get_set_self (r : Row) (k v : String) : Row.get (Row.set r k v) k = some v := by
  unfold Row.set
  by_cases h : (Row.get r k).isSome
  · rw [if_pos h]
    unfold Row.get at *
    rw [List.find?_map]
    have hc : ((fun p : String × String => p.1 == k) ∘ fun p => if p.1 == k then (k, v) else p)
        = fun p : String × String => p.1 == k := by
      funext p
      by_cases hp : p.1 == k <;> simp [Function.comp, hp]
    rw [hc]
    rcases hf : r.find? (fun p => p.1 == k) with _ | a
    · rw [hf] at h
      simp at h
    · have hpa := List.find?_some hf
      have h2 : a.1 = k := by simpa using hpa
      rw [hf]
      simp [h2]
  · rw [if_neg h]
    unfold Row.get at *
    rw [List.find?_append]
    rcases hf : r.find? (fun p => p.1 == k) with _ | a
    · simp [hf]
    · rw [hf] at h
      simp at h

/-- Setting one key leaves every other key's value (and presence) unchanged. -/
theorem Row.get_set_ne (r : Row) (k v k2 : String) (h : k2 ≠ k) :
    Row.get (Row.set r k v) k2 = Row.get r k2 := by
  unfold Row.set
  by_cases hs : (Row.get r k).isSome
  · rw [if_pos hs]
    unfold Row.get
    rw [List.find?_map]
    have hc : ((fun p : String × String => p.1 == k2) ∘ fun p => if p.1 == k then (k, v) else p)
        = fun p : String × String => p.1 == k2 := by
      funext p
      by_cases hp : p.1 == k
      · have hpk : p.1 = k := by simpa using hp
        have h1 : (k == k2) = false := by
          simp
          exact fun hkk => h hkk.symm
        have h2 : (p.1 == k2) = false := by
          rw [hpk]
          exact h1
        simp [Function.comp, hp, h1, h2]
      · simp [Function.comp, hp]
    rw [hc]
    rcases hf : r.find? (fun p => p.1 == k2) with _ | a
    · simp [hf]
    · have hpa := List.find?_some hf
      have hne : a.1 ≠ k := by
        have h2 : a.1 = k2 := by simpa using hpa
        rw [h2]
        exact h
      simp [hf, Function.comp, hne]
  · rw [if_neg hs]
    unfold Row.get
    rw [List.find?_append]
    have hone : List.find? (fun p : String × String => p.1 == k2) [(k, v)] = none := by
      have : (k == k2) = false := by
        simp
        exact fun hkk => h hkk.symm
      simp [this]
    rw [hone]
    simp

/-- A key holding a non-empty value is present. -/
theorem Row.isSome_of_getD_ne (r : Row) (k : String) (h : Row.getD r k ≠ "") :
    (Row.get r k).isSome := by
  unfold Row.getD at h
  rcases hf : Row.get r k with _ | v
  · rw [hf] at h
    simp at h
  · simp

/-- A step targeting another key does not change this key's entry. -/
theorem get_applyStep_ne (r : Row) (s : Step) (k : String) (h : k ≠ s.1) :
    Row.get (applyStep r s) k = Row.get r k := by
  unfold applyStep
  split
  · exact Row.get_set_ne r s.1 (s.2.2 r) k h
  · rfl

/-- `getD` version of `get_applyStep_ne`. -/
theorem getD_applyStep_ne (r : Row) (s : Step) (k : String) (h : k ≠ s.1) :
    Row.getD (applyStep r s) k = Row.getD r k := by
  unfold Row.getD
  rw [get_applyStep_ne r s k h]

/-- A step whose target already holds a non-empty value does nothing. -/
theorem applyStep_of_nonempty (r : Row) (s : Step) (h : Row.getD r s.1 ≠ "") :
    applyStep r s = r := by
  unfold applyStep
  rw [if_neg]
  intro hc
  exact h hc.1

/-- After a step with a true guard, the target key is present. -/
theorem isSome_applyStep_self (r : Row) (s : Step) (h : s.2.1 = true) :
    (Row.get (applyStep r s) s.1).isSome := by
  unfold applyStep
  by_cases hg : Row.getD r s.1 = ""
  · rw [if_pos ⟨hg, h⟩, Row.get_set_self]
    simp
  · rw [if_neg (fun hc => hg hc.1)]
    exact Row.isSome_of_getD_ne r s.1 hg

/-- Steps never remove keys. -/
theorem isSome_applyStep_mono (r : Row) (s : Step) (k : String)
    (h : (Row.get r k).isSome) : (Row.get (applyStep r s) k).isSome := by
  by_cases hk : k = s.1
  · subst hk
    unfold applyStep
    split
    · rw [Row.get_set_self]
      simp
    · exact h
  · rw [get_applyStep_ne r s k hk]
    exact h

/-- A key that is non-empty before the pipeline keeps its exact entry: every
step either targets another key or is skipped by its `!enrichedRow[k]` guard. -/
theorem foldl_get_of_nonempty (ss : List Step) (r : Row) (k : String)
    (h : Row.getD r k ≠ "") :
    Row.get (ss.foldl applyStep r) k = Row.get r k := by
  induction ss generalizing r with
  | nil => rfl
  | cons s t ih =>
    rw [List.foldl_cons]
    by_cases hk : k = s.1
    · rw [applyStep_of_nonempty r s (hk ▸ h)]
      exact ih r h
    · have h2 : Row.getD (applyStep r s) k ≠ "" := by
        rw [getD_applyStep_ne r s k hk]
        exact h
      rw [ih (applyStep r s) h2, get_applyStep_ne r s k hk]

/-- A row on which every step's target is already non-empty passes through the
pipeline unchanged. -/
theorem foldl_id_of_all_nonempty (ss : List Step) (r : Row)
    (h : ∀ s ∈ ss, Row.getD r s.1 ≠ "") :
    ss.foldl applyStep r = r := by
  induction ss with
  | nil => rfl
  | cons s t ih =>
    rw [List.foldl_cons, applyStep_of_nonempty r s (h s (by simp))]
    exact ih (fun s2 hs2 => h s2 (by simp [hs2]))

/-- A fold of steps none of which targets `k` leaves `k`'s entry unchanged. -/
theorem foldl_get_of_keys_ne (ss : List Step) (r : Row) (k : String)
    (h : ∀ s ∈ ss, s.1 ≠ k) :
    Row.get (ss.foldl applyStep r) k = Row.get r k := by
  induction ss generalizing r with
  | nil => rfl
  | cons s t ih =>
    rw [List.foldl_cons, ih (applyStep r s) (fun s2 hs2 => h s2 (by simp [hs2])),
      get_applyStep_ne r s k (fun hk => (h s (by simp)) hk.symm)]

/-- `getD` version of `foldl_get_of_keys_ne`. -/
theorem foldl_getD_of_keys_ne (ss : List Step) (r : Row) (k : String)
    (h : ∀ s ∈ ss, s.1 ≠ k) :
    Row.getD (ss.foldl applyStep r) k = Row.getD r k := by
  unfold Row.getD
  rw [foldl_get_of_keys_ne ss r k h]

/-- Key presence is preserved through the whole pipeline. -/
theorem foldl_isSome_mono (ss : List Step) (r : Row) (k : String)
    (h : (Row.get r k).isSome) : (Row.get (ss.foldl applyStep r) k).isSome := by
  induction ss generalizing r with
  | nil => exact h
  | cons s t ih =>
    rw [List.foldl_cons]
    exact ih (applyStep r s) (isSome_applyStep_mono r s k h)

/-- After folding a step list containing an active step for `k`, the key is
present. -/
theorem foldl_isSome_of_active (ss : List Step) (r : Row) (k : String)
    (h : hasActiveStep ss k = true) :
    (Row.get (ss.foldl applyStep r) k).isSome := by
  induction ss generalizing r with
  | nil => simp [hasActiveStep] at h
  | cons s t ih =>
    rw [List.foldl_cons]
    by_cases h1 : (s.1 == k && s.2.1) = true
    · have hk : s.1 = k := by
        have := (Bool.and_eq_true _ _).mp h1
        simpa using this.1
      have hg : s.2.1 = true := ((Bool.and_eq_true _ _).mp h1).2
      subst hk
      exact foldl_isSome_mono t (applyStep r s) s.1 (isSome_applyStep_self r s hg)
    · have h2 : hasActiveStep t k = true := by
        unfold hasActiveStep at h ⊢
        rcases (List.any_eq_true).mp h with ⟨s2, hs2, hp⟩
        rcases List.mem_cons.mp hs2 with h3 | h3
        · exact absurd (h3 ▸ hp) h1
        · exact List.any_eq_true.mpr ⟨s2, h3, hp⟩
      exact ih (applyStep r s) h2

/-- The enrichment map preserves the number of rows. -/
theorem length_enrichFrom (L : List String) (l : List Row) :
    ∀ i, (enrichFrom L i l).length = l.length := by
  induction l with
  | nil => intro i; rfl
  | cons row rest ih =>
    intro i
    simp only [enrichFrom, List.length_cons]
    rw [ih (i + 1)]

/-- Row `j` of the enrichment map is row `j` of the input enriched with the
raw line selected for its absolute index. -/
theorem getD_enrichFrom (L : List String) :
    ∀ (l : List Row) (i j : Nat), j < l.length →
      (enrichFrom L i l).getD j [] = enrichRow (rawInfoFor L (i + j)) (l.getD j []) := by
  intro l
  induction l with
  | nil =>
    intro i j hj
    simp at hj
  | cons row rest ih =>
    intro i j hj
    cases j with
    | zero => simp [enrichFrom]
    | succ j2 =>
      have hj2 : j2 < rest.length := by
        simp only [List.length_cons] at hj
        omega
      simp only [enrichFrom, List.getD_cons_succ]
      rw [ih (i + 1) j2 hj2]
      have harith : i + 1 + j2 = i + (j2 + 1) := by omega
      rw [harith]

/-- An accepted request: both validations passed and the output is the
enrichment map of the catalog. -/
theorem POST_ok (catalog : List Row) (rawData : String) (out : List Row)
    (h : POST catalog rawData = .ok out) :
    catalog.length ≠ 0 ∧ rawData ≠ "" ∧ out = enrichFrom (rawLinesOf rawData) 0 catalog := by
  unfold POST at h
  by_cases h1 : catalog.length = 0
  · rw [if_pos h1] at h
    exact absurd h (by simp)
  · rw [if_neg h1] at h
    by_cases h2 : rawData = ""
    · rw [if_pos h2] at h
      exact absurd h (by simp)
    · rw [if_neg h2] at h
      refine ⟨h1, h2, ?_⟩
      injection h with h3
      exact h3.symm

/-- Every kept raw line is non-empty (it survived the `line.trim()` filter). -/
theorem rawLines_mem_ne_empty (rawData : String) :
    ∀ l ∈ rawLinesOf rawData, l ≠ "" := by
  intro l hl he
  have h2 := (List.mem_filter.mp hl).2
  subst he
  simp [jsTrim, trimChars] at h2

/-- The step keys of the pipeline are exactly the required derived keys. -/
theorem enrichSteps_keys (rawInfo : String) (row : Row) :
    (enrichSteps rawInfo row).map (fun s => s.1) = requiredKeys := rfl

/-- C1.  For every accepted request and row: (a) any key non-empty in the
input keeps its exact entry in the output (enrichment never overwrites a
non-empty field); (b) a row whose derived fields are all non-empty is returned
unchanged. -/
theorem no_overwrite_and_idempotent (catalog : List Row) (rawData : String) (out : List Row)
    (h : POST catalog rawData = .ok out) :
    ∀ i, i < catalog.length →
      (∀ k, Row.getD (catalog.getD i []) k ≠ "" →
        Row.get (out.getD i []) k = Row.get (catalog.getD i []) k) ∧
      ((∀ k ∈ requiredKeys, Row.getD (catalog.getD i []) k ≠ "") →
        out.getD i [] = catalog.getD i []) := by
  intro i hi
  obtain ⟨h1, h2, h3⟩ := POST_ok catalog rawData out h
  subst h3
  rw [getD_enrichFrom (rawLinesOf rawData) catalog 0 i hi]
  simp only [Nat.zero_add]
  constructor
  · intro k hk
    exact foldl_get_of_nonempty _ _ _ hk
  · intro hall
    apply foldl_id_of_all_nonempty
    intro s hs
    apply hall
    have hmem : s.1 ∈ (enrichSteps (rawInfoFor (rawLinesOf rawData) i) (catalog.getD i [])).map
        (fun s => s.1) := List.mem_map_of_mem _ hs
    rw [enrichSteps_keys] at hmem
    exact hmem

/-- Witness for C1 at a concrete input. -/
theorem no_overwrite_and_idempotent_witness :
    Row.get ((enrichFrom (rawLinesOf "hello") 0 [[("brand", "Nike")]]).getD 0 []) "brand"
      = some "Nike" := by
  have h := no_overwrite_and_idempotent [[("brand", "Nike")]] "hello"
    (enrichFrom (rawLinesOf "hello") 0 [[("brand", "Nike")]]) rfl 0 (by decide)
  have h2 := h.1 "brand" (by decide)
  rw [h2]
  rfl

/-- On non-empty raw lines the `||`-fallback chain coincides with the spec's
index-based selection rule. -/
theorem rawInfoFor_eq_specSelect (L : List String) (hL : ∀ l ∈ L, l ≠ "") (i : Nat) :
    rawInfoFor L i = specSelect L i := by
  unfold rawInfoFor specSelect
  by_cases h : i < L.length
  · rw [dif_pos h]
    have hg : L.get? i = some (L.get ⟨i, h⟩) := List.get?_eq_get h
    rw [hg]
    have hx : L.get ⟨i, h⟩ ≠ "" := hL _ (L.get_mem i h)
    show jsOr (L.get ⟨i, h⟩) (jsOrU (L.get? 0) "") = L.get ⟨i, h⟩
    unfold jsOr
    rw [if_neg hx]
  · rw [dif_neg h]
    have hg : L.get? i = none := by
      rw [List.get?_eq_none]
      omega
    rw [hg]
    cases L with
    | nil => simp [jsOrU]
    | cons a t =>
      have ha : a ≠ "" := hL a (by simp)
      simp [jsOrU, jsOr, ha, List.getD]

/-- C7.  Row `i` is paired with `rawLines[i]` when that index exists, else
with `rawLines[0]` when any line exists, else with the empty string; with
exactly 2 non-blank lines and 5 rows, rows 2, 3 and 4 all use `rawLines[0]`. -/
theorem raw_line_pairing (catalog : List Row) (rawData : String) (out : List Row)
    (h : POST catalog rawData = .ok out) :
    (∀ i, i < catalog.length →
      out.getD i [] = enrichRow (specSelect (rawLinesOf rawData) i) (catalog.getD i [])) ∧
    ((rawLinesOf rawData).length = 2 → catalog.length = 5 →
      ∀ i, i = 2 ∨ i = 3 ∨ i = 4 →
        out.getD i [] = enrichRow ((rawLinesOf rawData).getD 0 "") (catalog.getD i [])) := by
  obtain ⟨h1, h2, h3⟩ := POST_ok catalog rawData out h
  subst h3
  have hmain : ∀ i, i < catalog.length →
      (enrichFrom (rawLinesOf rawData) 0 catalog).getD i []
        = enrichRow (specSelect (rawLinesOf rawData) i) (catalog.getD i []) := by
    intro i hi
    rw [getD_enrichFrom (rawLinesOf rawData) catalog 0 i hi]
    simp only [Nat.zero_add]
    rw [rawInfoFor_eq_specSelect (rawLinesOf rawData) (rawLines_mem_ne_empty rawData) i]
  refine ⟨hmain, ?_⟩
  intro hlen2 hlen5 i hi
  have hilt : i < catalog.length := by
    rcases hi with h5 | h5 | h5 <;> omega
  rw [hmain i hilt]
  have hnl : ¬ i < (rawLinesOf rawData).length := by
    rcases hi with h5 | h5 | h5 <;> omega
  have hne : rawLinesOf rawData ≠ [] := by
    intro hc
    rw [hc] at hlen2
    simp at hlen2
  unfold specSelect
  rw [dif_neg hnl, if_pos hne]

/-- Witness for C7 at a concrete input: 2 raw lines, 5 rows, row 2. -/
theorem raw_line_pairing_witness :
    (enrichFrom (rawLinesOf "a\nb") 0 [[], [], [], [], []]).getD 2 []
      = enrichRow ((rawLinesOf "a\nb").getD 0 "") [] := by
  have h := raw_line_pairing [[], [], [], [], []] "a\nb"
    (enrichFrom (rawLinesOf "a\nb") 0 [[], [], [], [], []]) rfl
  exact h.2 (by rfl) (by rfl) 2 (Or.inl rfl)

/-- C8.  The output has exactly the input's length and its row at each index
is derived from the input row at that same index. -/
theorem row_count_preservation (catalog : List Row) (rawData : String) (out : List Row)
    (h : POST catalog rawData = .ok out) :
    out.length = catalog.length ∧
    ∀ i, i < catalog.length →
      out.getD i [] = enrichRow (rawInfoFor (rawLinesOf rawData) i) (catalog.getD i []) := by
  obtain ⟨h1, h2, h3⟩ := POST_ok catalog rawData out h
  subst h3
  refine ⟨length_enrichFrom (rawLinesOf rawData) catalog 0, ?_⟩
  intro i hi
  rw [getD_enrichFrom (rawLinesOf rawData) catalog 0 i hi]
  simp only [Nat.zero_add]

/-- Witness for C8 at a concrete input. -/
theorem row_count_preservation_witness :
    (enrichFrom (rawLinesOf "x") 0 [[], []]).length = 2 := by
  have h := row_count_preservation [[], []] "x" (enrichFrom (rawLinesOf "x") 0 [[], []]) rfl
  exact h.1

/-- If every character is whitespace, every field produced by the newline
split consists of whitespace characters only. -/
theorem splitOnChar_mem_ws (sep : Char) (cs : List Char)
    (hcs : ∀ c ∈ cs, c.isWhitespace = true) :
    ∀ s ∈ splitOnChar sep cs, ∀ c ∈ s.toList, c.isWhitespace = true := by
  unfold splitOnChar
  simp only [List.mem_map]
  rintro s ⟨f, hf, rfl⟩
  suffices hcore : ∀ f ∈ cs.foldr
      (fun c acc =>
        match acc with
        | [] => [[]]
        | f :: rest => if c = sep then [] :: f :: rest else (c :: f) :: rest)
      [[]], ∀ c ∈ f, c.isWhitespace = true by
    intro c hc
    exact hcore f hf c hc
  clear hf f
  induction cs with
  | nil =>
    intro f hf c hc
    simp at hf
    subst hf
    simp at hc
  | cons c0 rest ih =>
    have hc0 : c0.isWhitespace = true := hcs c0 (by simp)
    have hrest : ∀ c ∈ rest, c.isWhitespace = true := fun c hc => hcs c (by simp [hc])
    intro f hf ch hch
    rw [List.foldr_cons] at hf
    rcases hacc : rest.foldr
        (fun c acc =>
          match acc with
          | [] => [[]]
          | f :: rest => if c = sep then [] :: f :: rest else (c :: f) :: rest)
        [[]] with _ | ⟨f0, r2⟩
    · rw [hacc] at hf
      simp at hf
      subst hf
      simp at hch
    · rw [hacc] at hf
      have hf2 : f ∈ (if c0 = sep then [] :: f0 :: r2 else (c0 :: f0) :: r2) := hf
      clear hf
      by_cases hsep : c0 = sep
      · rw [if_pos hsep] at hf2
        rcases List.mem_cons.mp hf2 with h1 | h1
        · subst h1
          simp at hch
        · exact ih hrest f (hacc ▸ h1) ch hch
      · rw [if_neg hsep] at hf2
        rcases List.mem_cons.mp hf2 with h1 | h1
        · subst h1
          rcases List.mem_cons.mp hch with h2 | h2
          · subst h2
            exact hc0
          · exact ih hrest f0 (hacc ▸ (by simp)) ch h2
        · exact ih hrest f (hacc ▸ (by simp [h1])) ch hch

/-- Trimming an all-whitespace list leaves nothing. -/
theorem trimChars_of_all_ws (cs : List Char) (h : ∀ c ∈ cs, c.isWhitespace = true) :
    trimChars cs = [] := by
  unfold trimChars
  have h1 : cs.dropWhile Char.isWhitespace = [] := List.dropWhile_eq_nil_iff.mpr h
  rw [h1]
  simp

/-- Conversely, a list with empty trim is all whitespace. -/
theorem all_ws_of_trimChars_nil (cs : List Char) (h : trimChars cs = []) :
    ∀ c ∈ cs, c.isWhitespace = true := by
  unfold trimChars at h
  have h1 : (cs.dropWhile Char.isWhitespace).reverse.dropWhile Char.isWhitespace = [] := by
    have := congrArg List.reverse h
    simpa using this
  have h2 : ∀ c ∈ (cs.dropWhile Char.isWhitespace).reverse, c.isWhitespace = true :=
    List.dropWhile_eq_nil_iff.mp h1
  have h3 : ∀ c ∈ cs.dropWhile Char.isWhitespace, c.isWhitespace = true := by
    intro c hc
    exact h2 c (List.mem_reverse.mpr hc)
  intro c hc
  rw [← List.takeWhile_append_dropWhile (p := Char.isWhitespace) (l := cs)] at hc
  rcases List.mem_append.mp hc with h4 | h4
  · exact List.mem_takeWhile_imp h4
  · exact h3 c h4

/-- A whitespace-only raw text yields no raw lines: every line of the newline
split is blank and is removed by the `line.trim()` filter. -/
theorem rawLinesOf_blank (rawData : String) (h : jsTrim rawData = "") :
    rawLinesOf rawData = [] := by
  have hws : ∀ c ∈ rawData.toList, c.isWhitespace = true := by
    apply all_ws_of_trimChars_nil
    have := congrArg String.toList h
    simpa [jsTrim] using this
  unfold rawLinesOf
  rw [List.filter_eq_nil_iff]
  intro l hl
  have hlws := splitOnChar_mem_ws '\n' rawData.toList hws l hl
  have htriml : jsTrim l = "" := by
    unfold jsTrim
    rw [trimChars_of_all_ws l.toList hlws]
  simp [htriml]

/-- C3 (amended).  Only the empty string is rejected with "Raw data is
required"; a non-empty whitespace-only `rawData` passes validation and the
request is processed with an empty raw-line list (every row gets the empty
raw info). -/
theorem blank_rawdata_accepted (catalog : List Row) (rawData : String)
    (h1 : catalog.length ≠ 0) (h2 : rawData ≠ "") (h3 : jsTrim rawData = "") :
    POST catalog rawData = .ok (enrichFrom [] 0 catalog) := by
  unfold POST
  rw [if_neg h1, if_neg h2, rawLinesOf_blank rawData h3]

/-- Witness for the amended C3 at a concrete input. -/
theorem blank_rawdata_accepted_witness :
    POST [[]] " " = .ok (enrichFrom [] 0 [[]]) :=
  blank_rawdata_accepted [[]] " " (by decide) (by decide) (by decide)

/-- C3 counterexample: the whitespace-only raw text `" "` is non-empty but
blank, yet the call is accepted (no 400 "Raw data is required" error, and
enrichment is performed), contradicting the claim. -/
theorem blank_rawdata_counterexample : (POST [[]] " ").isOk = true := rfl

/-- With at least one (necessarily non-blank) raw line, every row's selected
raw info is non-empty. -/
theorem rawInfoFor_ne_empty (L : List String) (hL : ∀ l ∈ L, l ≠ "") (hne : L ≠ [])
    (i : Nat) : rawInfoFor L i ≠ "" := by
  rw [rawInfoFor_eq_specSelect L hL i]
  unfold specSelect
  by_cases h : i < L.length
  · rw [dif_pos h]
    exact hL _ (L.get_mem i h)
  · rw [dif_neg h, if_pos hne]
    cases L with
    | nil => exact absurd rfl hne
    | cons a t => exact hL a (by simp)

/-- C2 (amended).  Every output row contains all required derived keys with
the exception of `product_title`: that key is guaranteed only when the raw
line list is non-empty (its step's guard also requires a truthy `rawInfo`) or
when the input row already carries the key. -/
theorem field_presence (catalog : List Row) (rawData : String) (out : List Row)
    (h : POST catalog rawData = .ok out) :
    ∀ i, i < catalog.length →
      (∀ k ∈ requiredKeys, k ≠ "product_title" → (Row.get (out.getD i []) k).isSome) ∧
      ((rawLinesOf rawData ≠ [] ∨ (Row.get (catalog.getD i []) "product_title").isSome) →
        (Row.get (out.getD i []) "product_title").isSome) := by
  intro i hi
  obtain ⟨h1, h2, h3⟩ := POST_ok catalog rawData out h
  subst h3
  rw [getD_enrichFrom (rawLinesOf rawData) catalog 0 i hi]
  simp only [Nat.zero_add]
  unfold enrichRow
  constructor
  · intro k hk hknept
    fin_cases hk
    all_goals first
      | exact absurd rfl hknept
      | exact foldl_isSome_of_active _ _ _ rfl
  · intro hcase
    rcases hcase with hlines | hsome
    · apply foldl_isSome_of_active
      have hne : rawInfoFor (rawLinesOf rawData) i ≠ "" :=
        rawInfoFor_ne_empty (rawLinesOf rawData) (rawLines_mem_ne_empty rawData) hlines i
      have hred : hasActiveStep
          (enrichSteps (rawInfoFor (rawLinesOf rawData) i) (catalog.getD i [])) "product_title"
          = ((rawInfoFor (rawLinesOf rawData) i != "") || false) := rfl
      rw [hred]
      simp [hne]
    · exact foldl_isSome_mono _ _ _ hsome

/-- Witness for the amended C2 at a concrete input. -/
theorem field_presence_witness :
    (Row.get ((enrichFrom (rawLinesOf "hi") 0 [[]]).getD 0 []) "brand").isSome := by
  have h := field_presence [[]] "hi" (enrichFrom (rawLinesOf "hi") 0 [[]]) rfl 0 (by decide)
  exact h.1 "brand" (by decide) (by decide)

set_option maxRecDepth 4000 in
/-- C2 counterexample: the request `catalog = [{}]`, `rawData = " "` is
accepted (catalog non-empty, rawData a non-empty string), yet the output row
does not contain the key `product_title`. -/
theorem field_presence_counterexample :
    (POST [[]] " ").map (fun out => Row.get (out.getD 0 []) "product_title")
      = Except.ok none := rfl

/-- A digit is never whitespace. -/
theorem not_ws_of_isDigit (c : Char) (h : c.isDigit = true) : c.isWhitespace = false := by
  cases hw : c.isWhitespace
  · rfl
  · have h2 : ((c = ' ' ∨ c = '\t') ∨ c = '\x0d') ∨ c = '\n' := by
      simpa [Char.isWhitespace] using hw
    rcases h2 with ((rfl | rfl) | rfl) | rfl <;> exact absurd h (by decide)

/-- The capture group fails at a non-digit position. -/
theorem groupAt_none_of_not_digit (d : Char) (t : List Char) (h : d.isDigit = false) :
    groupAt (d :: t) = none := by
  unfold groupAt
  rw [List.takeWhile_cons_of_neg (by simp [h])]
  simp

/-- The capture group succeeds at a digit position. -/
theorem groupAt_some_of_digit (d : Char) (t : List Char) (h : d.isDigit = true) :
    ∃ g, groupAt (d :: t) = some g := by
  unfold groupAt
  rw [List.takeWhile_cons_of_pos h]
  exact ⟨_, by rw [if_neg (by simp)]⟩

/-- When skipping whitespace lands on a digit, skipping non-digits lands on
the same spot (the skipped whitespace characters are all non-digits and the
digit stops both scans). -/
theorem dropWhile_ws_eq_dropWhile_not_digit (cs : List Char) (d : Char) (t : List Char)
    (h : cs.dropWhile Char.isWhitespace = d :: t) (hd : d.isDigit = true) :
    cs.dropWhile (fun c => !c.isDigit) = d :: t := by
  induction cs with
  | nil => simp at h
  | cons c rest ih =>
    by_cases hw : c.isWhitespace = true
    · rw [List.dropWhile_cons_of_pos hw] at h
      have hcd : c.isDigit = false := by
        cases h1 : c.isDigit
        · rfl
        · rw [not_ws_of_isDigit c h1] at hw
          simp at hw
      have hstep : List.dropWhile (fun x => !x.isDigit) (c :: rest)
          = List.dropWhile (fun x => !x.isDigit) rest :=
        List.dropWhile_cons_of_pos (by simp [hcd])
      rw [hstep]
      exact ih h
    · rw [List.dropWhile_cons_of_neg (by simpa using hw)] at h
      injection h with h1 h2
      subst h1
      subst h2
      have hstep : List.dropWhile (fun x => !x.isDigit) (c :: rest) = c :: rest :=
        List.dropWhile_cons_of_neg (by simp [hd])
      rw [hstep]

/-- If `\s*` followed by the capture group succeeds, its result is the group
taken at the first digit reachable by skipping non-digits. -/
theorem matchAfterSign_some_eq (cs : List Char) (h : (matchAfterSign cs).isSome = true) :
    matchAfterSign cs = groupAt (cs.dropWhile (fun c => !c.isDigit)) := by
  unfold matchAfterSign at *
  rcases hdw : cs.dropWhile Char.isWhitespace with _ | ⟨d, t⟩
  · rw [hdw] at h
    simp [groupAt] at h
  · rw [hdw] at h
    have hd : d.isDigit = true := by
      cases h1 : d.isDigit
      · rw [groupAt_none_of_not_digit d t h1] at h
        simp at h
      · rfl
    rw [dropWhile_ws_eq_dropWhile_not_digit cs d t hdw hd]

/-- Key fact behind C10: the first regex match's capture group always starts
at the first digit of the string — every digit position matches the pattern on
its own (the `₹` sign and the whitespace are optional), and no match can
produce a group starting before the first digit. -/
theorem findPriceGroup_eq_first_digit (cs : List Char) :
    findPriceGroup cs = groupAt (cs.dropWhile (fun c => !c.isDigit)) := by
  induction cs with
  | nil => rfl
  | cons c rest ih =>
    show (matchGroupAt (c :: rest)).orElse (fun _ => findPriceGroup rest)
      = groupAt ((c :: rest).dropWhile (fun x => !x.isDigit))
    by_cases hd : c.isDigit = true
    · have hne : c ≠ '₹' := by
        intro hc
        subst hc
        exact absurd hd (by decide)
      have hnws : c.isWhitespace = false := not_ws_of_isDigit c hd
      have hstep : List.dropWhile (fun x => !x.isDigit) (c :: rest) = c :: rest :=
        List.dropWhile_cons_of_neg (by simp [hd])
      rw [hstep]
      show (if c = '₹' then (matchAfterSign rest).orElse (fun _ => matchAfterSign (c :: rest))
        else matchAfterSign (c :: rest)).orElse (fun _ => findPriceGroup rest)
        = groupAt (c :: rest)
      rw [if_neg hne]
      have hms : matchAfterSign (c :: rest) = groupAt (c :: rest) := by
        unfold matchAfterSign
        rw [List.dropWhile_cons_of_neg (by simp [hnws])]
      rw [hms]
      obtain ⟨g, hg⟩ := groupAt_some_of_digit c rest hd
      rw [hg]
      rfl
    · have hd2 : c.isDigit = false := by
        cases h1 : c.isDigit
        · rfl
        · exact absurd h1 hd
      have hstep : List.dropWhile (fun x => !x.isDigit) (c :: rest)
          = List.dropWhile (fun x => !x.isDigit) rest :=
        List.dropWhile_cons_of_pos (by simp [hd2])
      rw [hstep]
      by_cases hc9 : c = '₹'
      · show (if c = '₹' then (matchAfterSign rest).orElse (fun _ => matchAfterSign (c :: rest))
          else matchAfterSign (c :: rest)).orElse (fun _ => findPriceGroup rest)
          = groupAt (rest.dropWhile (fun x => !x.isDigit))
        rw [if_pos hc9]
        subst hc9
        have hnone : matchAfterSign ('₹' :: rest) = none := by
          unfold matchAfterSign
          rw [List.dropWhile_cons_of_neg (by decide)]
          exact groupAt_none_of_not_digit '₹' rest (by decide)
        rw [hnone]
        rcases hms : matchAfterSign rest with _ | g
        · show findPriceGroup rest = groupAt (rest.dropWhile (fun x => !x.isDigit))
          exact ih
        · have h2 := matchAfterSign_some_eq rest (by rw [hms]; rfl)
          rw [hms] at h2
          show some g = groupAt (rest.dropWhile (fun x => !x.isDigit))
          exact h2
      · show (if c = '₹' then (matchAfterSign rest).orElse (fun _ => matchAfterSign (c :: rest))
          else matchAfterSign (c :: rest)).orElse (fun _ => findPriceGroup rest)
          = groupAt (rest.dropWhile (fun x => !x.isDigit))
        rw [if_neg hc9]
        rcases hms : matchAfterSign (c :: rest) with _ | g
        · show findPriceGroup rest = groupAt (rest.dropWhile (fun x => !x.isDigit))
          exact ih
        · have h2 := matchAfterSign_some_eq (c :: rest) (by rw [hms]; rfl)
          rw [hms] at h2
          have hstep2 : List.dropWhile (fun x => !x.isDigit) (c :: rest)
              = List.dropWhile (fun x => !x.isDigit) rest :=
            List.dropWhile_cons_of_pos (by simp [hd2])
          rw [hstep2] at h2
          show some g = groupAt (rest.dropWhile (fun x => !x.isDigit))
          exact h2

/-- C10.  Price extraction does not require the `₹` sign: for every input,
`extractPrice` returns the capture group taken at the FIRST digit of the line
(the maximal digit run with optional comma groups and optional 2-decimal
fraction, as `groupAt` implements), with the first-comma removal of
`replace(',', '')` applied — so any leading non-price number becomes the
price, e.g. the waist size 32 rather than the `₹999` price. -/
theorem price_ignores_currency_sign :
    (∀ s : String,
      extractPrice s =
        match groupAt (s.toList.dropWhile (fun c => !c.isDigit)) with
        | some g => String.mk (removeFirstComma g)
        | none => "") ∧
    extractPrice "32 waist jeans ₹999" = "32" := by
  constructor
  · intro s
    unfold extractPrice
    rw [findPriceGroup_eq_first_digit]
  · rfl

/-- C4: evaluation of `extractPrice` at the failing input.  The regex matches
the group `1,00,000`, but JS `String.prototype.replace` with the string
pattern `','` removes only the FIRST occurrence, so the result keeps the
second comma — `"100,000"`, not the claimed `"100000"`. -/
theorem comma_strip_first_only : extractPrice "₹1,00,000" = "100,000" := rfl

/-- A step whose target is currently empty and whose guard holds stores its
computed value. -/
theorem get_applyStep_self_of_empty (r : Row) (k : String) (g : Bool) (f : Row → String)
    (h1 : Row.getD r k = "") (h2 : g = true) :
    Row.get (applyStep r (k, g, f)) k = some (f r) := by
  unfold applyStep
  rw [if_pos ⟨h1, h2⟩, Row.get_set_self]

/-- No step of `ss` targets `k`, established by evaluating the key list. -/
theorem steps_keys_ne (ss : List Step) (k : String)
    (h : List.elem k (ss.map (fun s => s.1)) = false) : ∀ s ∈ ss, s.1 ≠ k := by
  intro s hs he
  have hmem : k ∈ ss.map (fun s => s.1) := by
    subst he
    exact List.mem_map_of_mem _ hs
  rw [List.elem_eq_true_of_mem hmem] at h
  simp at h

/-- Splitting the pipeline fold at position `n`. -/
theorem enrichRow_split (rawInfo : String) (row : Row) (n : Nat) :
    enrichRow rawInfo row
      = List.foldl applyStep (List.foldl applyStep row ((enrichSteps rawInfo row).take n))
          ((enrichSteps rawInfo row).drop n) := by
  unfold enrichRow
  rw [← List.foldl_append, List.take_append_drop]

/-- Folding one more step is one `applyStep` application (cheap list-level
split of the pipeline). -/
theorem foldl_take_succ (rawInfo : String) (row : Row) (n : Nat) (s : Step)
    (h : (enrichSteps rawInfo row).take (n + 1) = (enrichSteps rawInfo row).take n ++ [s]) :
    List.foldl applyStep row ((enrichSteps rawInfo row).take (n + 1))
      = applyStep (List.foldl applyStep row ((enrichSteps rawInfo row).take n)) s := by
  rw [h, List.foldl_append]
  rfl

/-- The description slot of an enriched row whose input description is empty
is exactly `generateDescription` applied to the ORIGINAL row (the description
step runs second, before any brand/category/color/material extraction). -/
theorem enrichRow_get_description (rawInfo : String) (row : Row)
    (hd : Row.getD row "description" = "") :
    Row.get (enrichRow rawInfo row) "description"
      = some (generateDescription rawInfo row) := by
  rw [enrichRow_split rawInfo row 2]
  rw [foldl_get_of_keys_ne]
  · rw [foldl_take_succ rawInfo row 1
      ("description", true, fun _ => generateDescription rawInfo row) rfl]
    rw [get_applyStep_self_of_empty]
    · rw [foldl_getD_of_keys_ne]
      · exact hd
      · exact steps_keys_ne _ _ rfl
    · rfl
  · exact steps_keys_ne _ _ rfl

/-- The mrp slot of an enriched row whose input mrp is empty is `mrpFrom`
applied to the row's final price: the mrp step reads `enrichedRow['price']`
right after the price step, and no later step touches either key. -/
theorem enrichRow_get_mrp (rawInfo : String) (row : Row)
    (hm : Row.getD row "mrp" = "") :
    Row.get (enrichRow rawInfo row) "mrp"
      = some (mrpFrom (Row.getD (enrichRow rawInfo row) "price")) := by
  have hprice : Row.getD (enrichRow rawInfo row) "price"
      = Row.getD (List.foldl applyStep row ((enrichSteps rawInfo row).take 3)) "price" := by
    rw [enrichRow_split rawInfo row 4]
    rw [foldl_getD_of_keys_ne]
    · rw [foldl_take_succ rawInfo row 3 ("mrp", true, fun r => mrpFrom (Row.getD r "price")) rfl]
      rw [getD_applyStep_ne]
      show ("price" : String) ≠ "mrp"
      decide
    · exact steps_keys_ne _ _ rfl
  rw [hprice]
  rw [enrichRow_split rawInfo row 4]
  rw [foldl_get_of_keys_ne]
  · rw [foldl_take_succ rawInfo row 3 ("mrp", true, fun r => mrpFrom (Row.getD r "price")) rfl]
    rw [get_applyStep_self_of_empty]
    · rw [foldl_getD_of_keys_ne]
      · exact hm
      · exact steps_keys_ne _ _ rfl
    · rfl
  · exact steps_keys_ne _ _ rfl

/-- Generic form of the C9 keyword fact: if the input row lacks
brand/category/color/material and the `{p}_keywords` key, and the keyword step
for platform `p` sits at position `n` of the pipeline, then the generated
keywords are built from EMPTY attribute values (the brand/category/color/
material steps run only after the platform loop), yielding exactly the five
fixed words. -/
theorem enrichRow_get_keywords (rawInfo : String) (row : Row) (p : String) (n : Nat)
    (hstep : (enrichSteps rawInfo row).take (n + 1)
      = (enrichSteps rawInfo row).take n
          ++ [(p ++ "_keywords", true, fun r => generateKeywords p r rawInfo)])
    (hpost : ∀ s ∈ (enrichSteps rawInfo row).drop (n + 1), s.1 ≠ p ++ "_keywords")
    (hpre_kw : ∀ s ∈ (enrichSteps rawInfo row).take n, s.1 ≠ p ++ "_keywords")
    (hpre_b : ∀ s ∈ (enrichSteps rawInfo row).take n, s.1 ≠ "brand")
    (hpre_c : ∀ s ∈ (enrichSteps rawInfo row).take n, s.1 ≠ "category")
    (hpre_co : ∀ s ∈ (enrichSteps rawInfo row).take n, s.1 ≠ "color")
    (hpre_m : ∀ s ∈ (enrichSteps rawInfo row).take n, s.1 ≠ "material")
    (hb : Row.getD row "brand" = "") (hc : Row.getD row "category" = "")
    (hco : Row.getD row "color" = "") (hmat : Row.getD row "material" = "")
    (hkw : Row.getD row (p ++ "_keywords") = "") :
    Row.get (enrichRow rawInfo row) (p ++ "_keywords")
      = some "quality, premium, best, latest, trending" := by
  rw [enrichRow_split rawInfo row (n + 1)]
  rw [foldl_get_of_keys_ne _ _ _ hpost]
  rw [foldl_take_succ rawInfo row n (p ++ "_keywords", true, fun r => generateKeywords p r rawInfo)
    hstep]
  rw [get_applyStep_self_of_empty]
  · show some (generateKeywords p (List.foldl applyStep row ((enrichSteps rawInfo row).take n))
      rawInfo) = some "quality, premium, best, latest, trending"
    unfold generateKeywords
    rw [foldl_getD_of_keys_ne _ _ _ hpre_b, foldl_getD_of_keys_ne _ _ _ hpre_c,
      foldl_getD_of_keys_ne _ _ _ hpre_co, foldl_getD_of_keys_ne _ _ _ hpre_m,
      hb, hc, hco, hmat]
    rfl
  · rw [foldl_getD_of_keys_ne _ _ _ hpre_kw]
    exact hkw
  · rfl

set_option maxRecDepth 8000 in
/-- C5.  When the description is synthesized (the row lacks both
`description` and `desc`), the interpolated brand and category come from the
INPUT row's fields with defaults `"Quality"` and `"product"` — never from the
brand/category extracted later in the same pass; e.g. for the row `{}` with a
raw line containing "Nike" and "T-Shirt" the result still starts with
"Premium Quality product". -/
theorem description_uses_raw_defaults (catalog : List Row) (rawData : String) (out : List Row)
    (h : POST catalog rawData = .ok out) :
    (∀ i, i < catalog.length →
      Row.getD (catalog.getD i []) "description" = "" →
      Row.getD (catalog.getD i []) "desc" = "" →
      Row.getD (out.getD i []) "description"
        = (let row := catalog.getD i []
           let rawInfo := rawInfoFor (rawLinesOf rawData) i
           let brand := jsOr (Row.getD row "brand") "Quality"
           let category := jsOr (Row.getD row "category") "product"
           let color := jsOr (Row.getD row "color") ""
           let material := jsOr (Row.getD row "material") ""
           let d1 := "Premium " ++ brand ++ " " ++ category
           let d2 := if color ≠ "" then d1 ++ " in " ++ color ++ " color" else d1
           let d3 := if material ≠ "" then d2 ++ " made with " ++ material else d2
           d3 ++ ". " ++ String.mk (rawInfo.toList.take 200))) ∧
    ((POST [[]] "Nike Blue T-Shirt").map (fun o =>
        isPrefixOfChars "Premium Quality product".toList
          (Row.getD (o.getD 0 []) "description").toList)
      = Except.ok true) := by
  constructor
  · intro i hi hdesc hdsc
    obtain ⟨h1, h2, h3⟩ := POST_ok catalog rawData out h
    subst h3
    rw [getD_enrichFrom (rawLinesOf rawData) catalog 0 i hi]
    simp only [Nat.zero_add]
    have hget := enrichRow_get_description (rawInfoFor (rawLinesOf rawData) i)
      (catalog.getD i []) hdesc
    unfold Row.getD
    rw [hget]
    show generateDescription (rawInfoFor (rawLinesOf rawData) i) (catalog.getD i []) = _
    unfold generateDescription
    rw [hdesc, hdsc]
    rfl
  · rfl

set_option maxRecDepth 8000 in
/-- Witness for C5 at a concrete input. -/
theorem description_uses_raw_defaults_witness :
    Row.getD ((enrichFrom (rawLinesOf "hello") 0 [[]]).getD 0 []) "description"
      = "Premium Quality product. hello" := by
  have h := (description_uses_raw_defaults [[]] "hello"
    (enrichFrom (rawLinesOf "hello") 0 [[]]) rfl).1 0 (by decide) (by decide) (by decide)
  rw [h]
  rfl

/-- C6 (amended).  For a row whose input mrp is absent/empty, the output mrp
is computed at IEEE-754 binary64 precision: the resolved (output) price string
is parsed to the nearest double (`parseFloatD`, with the JS `|| 0` fallback
for `NaN`); when that double is positive, the mrp is the binary64 product with
`1.25` — re-rounded to a double — formatted by `toFixed(2)` (stated for
products below `10^21`, the fixed-point range of `toFixed`); when the price
does not resolve to a positive value, the mrp is the empty string.  Because
the product is rounded to a double BEFORE the two-decimal formatting, the
result differs from exact `p * 1.25` at half-cent boundaries: see the
counterexample, where price "0.06" yields "0.07", not "0.08". -/
theorem mrp_double_relation (catalog : List Row) (rawData : String) (out : List Row)
    (h : POST catalog rawData = .ok out) :
    ∀ i, i < catalog.length →
      Row.getD (catalog.getD i []) "mrp" = "" →
      ((f64Pos (f64OrZero (parseFloatD (Row.getD (out.getD i []) "price"))) = true →
        f64Below1e21 (f64Mul125 (f64OrZero (parseFloatD
          (Row.getD (out.getD i []) "price")))) = true →
        Row.getD (out.getD i []) "mrp"
          = f64ToFixed2 (f64Mul125 (f64OrZero (parseFloatD
              (Row.getD (out.getD i []) "price"))))) ∧
      (f64Pos (f64OrZero (parseFloatD (Row.getD (out.getD i []) "price"))) = false →
        Row.getD (out.getD i []) "mrp" = "")) := by
  intro i hi hm
  obtain ⟨h1, h2, h3⟩ := POST_ok catalog rawData out h
  subst h3
  rw [getD_enrichFrom (rawLinesOf rawData) catalog 0 i hi]
  simp only [Nat.zero_add]
  have hget := enrichRow_get_mrp (rawInfoFor (rawLinesOf rawData) i) (catalog.getD i []) hm
  have hmrp : Row.getD (enrichRow (rawInfoFor (rawLinesOf rawData) i) (catalog.getD i [])) "mrp"
      = mrpFrom (Row.getD (enrichRow (rawInfoFor (rawLinesOf rawData) i)
          (catalog.getD i [])) "price") := by
    have h4 : Row.getD (enrichRow (rawInfoFor (rawLinesOf rawData) i) (catalog.getD i [])) "mrp"
        = (Row.get (enrichRow (rawInfoFor (rawLinesOf rawData) i)
            (catalog.getD i [])) "mrp").getD "" := rfl
    rw [h4, hget, Option.getD_some]
  rw [hmrp]
  constructor
  · intro hpos _
    simp only [mrpFrom]
    rw [if_pos hpos]
  · intro hneg
    simp only [mrpFrom]
    rw [if_neg]
    intro hc
    rw [hneg] at hc
    exact absurd hc (by decide)

unseal Rat.add Rat.mul Rat.inv in
set_option maxRecDepth 8000 in
/-- Witness for the amended C6 at a concrete input: price "₹100" gives mrp
"125.00" (here the double product is exact). -/
theorem mrp_double_relation_witness :
    Row.getD ((enrichFrom (rawLinesOf "₹100") 0 [[]]).getD 0 []) "mrp" = "125.00" := by
  have h := (mrp_double_relation [[]] "₹100" (enrichFrom (rawLinesOf "₹100") 0 [[]]) rfl 0
    (by decide) (by decide)).1 (by decide) (by decide)
  rw [h]
  rfl

unseal Rat.add Rat.mul Rat.inv in
set_option maxRecDepth 8000 in
/-- C6 counterexample.  With catalog `[{}]` and raw data "₹0.06" the resolved
price is "0.06", whose exact parsed value is `p = 3/50`; the claim demands
`p * 1.25 = 0.075` at two decimals, i.e. "0.08" under the ECMAScript
ties-to-larger rule, but the program multiplies the DOUBLE nearest to `0.06`
by `1.25` in binary64, landing just below `0.075`, and its `toFixed(2)`
output — and hence the output mrp — is "0.07". -/
theorem mrp_exact_rounding_counterexample :
    (POST [[]] "₹0.06").map (fun out => Row.getD (out.getD 0 []) "mrp")
      = Except.ok "0.07" ∧
    parseFloatQ "0.06" = some (3 / 50 : ℚ) ∧
    toFixed2 ((3 / 50 : ℚ) * (5 / 4)) = "0.08" ∧
    ("0.07" : String) ≠ "0.08" := by
  exact ⟨rfl, by decide, by decide, by decide⟩

set_option maxRecDepth 10000 in
/-- C9.  The twelve platform fields are computed before brand, category,
color, size and material are extracted: for a row lacking those attributes,
every platform's keywords are built from empty attribute values — the five
fixed filler words — even when the attributes are extractable from the raw
line; concretely, for catalog `[{}]` and raw data
"Nike Blue T-Shirt M Cotton ₹1200" all four `{p}_keywords` equal
"quality, premium, best, latest, trending" and contain neither "Nike" nor
"Blue", although the same output row has brand "Nike" and color "Blue". -/
theorem platform_keywords_before_extraction :
    (∀ rawInfo row, Row.getD row "brand" = "" → Row.getD row "category" = "" →
      Row.getD row "color" = "" → Row.getD row "material" = "" →
      ∀ p ∈ platforms, Row.getD row (p ++ "_keywords") = "" →
        Row.getD (enrichRow rawInfo row) (p ++ "_keywords")
          = "quality, premium, best, latest, trending") ∧
    ((POST [[]] "Nike Blue T-Shirt M Cotton ₹1200").map (fun out =>
        (Row.getD (out.getD 0 []) "amazon_keywords",
         Row.getD (out.getD 0 []) "flipkart_keywords",
         Row.getD (out.getD 0 []) "meesho_keywords",
         Row.getD (out.getD 0 []) "myntra_keywords",
         jsIncludes (Row.getD (out.getD 0 []) "amazon_keywords") "Nike",
         jsIncludes (Row.getD (out.getD 0 []) "amazon_keywords") "Blue",
         Row.getD (out.getD 0 []) "brand",
         Row.getD (out.getD 0 []) "color"))
      = Except.ok ("quality, premium, best, latest, trending",
          "quality, premium, best, latest, trending",
          "quality, premium, best, latest, trending",
          "quality, premium, best, latest, trending",
          false, false, "Nike", "Blue")) := by
  constructor
  · intro rawInfo row hb hc hco hmat p hp hkw
    have hget : Row.get (enrichRow rawInfo row) (p ++ "_keywords")
        = some "quality, premium, best, latest, trending" := by
      fin_cases hp
      · exact enrichRow_get_keywords rawInfo row "amazon" 6 rfl (steps_keys_ne _ _ rfl)
          (steps_keys_ne _ _ rfl) (steps_keys_ne _ _ rfl) (steps_keys_ne _ _ rfl)
          (steps_keys_ne _ _ rfl) (steps_keys_ne _ _ rfl) hb hc hco hmat hkw
      · exact enrichRow_get_keywords rawInfo row "flipkart" 9 rfl (steps_keys_ne _ _ rfl)
          (steps_keys_ne _ _ rfl) (steps_keys_ne _ _ rfl) (steps_keys_ne _ _ rfl)
          (steps_keys_ne _ _ rfl) (steps_keys_ne _ _ rfl) hb hc hco hmat hkw
      · exact enrichRow_get_keywords rawInfo row "meesho" 12 rfl (steps_keys_ne _ _ rfl)
          (steps_keys_ne _ _ rfl) (steps_keys_ne _ _ rfl) (steps_keys_ne _ _ rfl)
          (steps_keys_ne _ _ rfl) (steps_keys_ne _ _ rfl) hb hc hco hmat hkw
      · exact enrichRow_get_keywords rawInfo row "myntra" 15 rfl (steps_keys_ne _ _ rfl)
          (steps_keys_ne _ _ rfl) (steps_keys_ne _ _ rfl) (steps_keys_ne _ _ rfl)
          (steps_keys_ne _ _ rfl) (steps_keys_ne _ _ rfl) hb hc hco hmat hkw
    have h4 : Row.getD (enrichRow rawInfo row) (p ++ "_keywords")
        = (Row.get (enrichRow rawInfo row) (p ++ "_keywords")).getD "" := rfl
    rw [h4, hget, Option.getD_some]
  · rfl

/-- Witness for C9 at a concrete input. -/
theorem platform_keywords_before_extraction_witness :
    Row.getD (enrichRow "x" []) "amazon_keywords"
      = "quality, premium, best, latest, trending" :=
  platform_keywords_before_extraction.1 "x" [] rfl rfl rfl rfl "amazon" (by decide) rfl
